import Mathlib

set_option maxRecDepth 8000

/-!
Verification of the tft-analyzer-api harvesting-and-aggregation pipeline.

The repository's pipeline variants are embedded shallowly:

* the mjs updater script (scripts/update_comp_stats.mjs and the variant in
  src/unnamed/part_001): throttled transport with bounded 429 retry, match-id
  dedup with a 120-id cap, canonical composition keys, counter aggregation,
  ranking, and the guarded publish step;
* the TypeScript drafts (src/src/types.ts, src/src/updateCompStats.ts,
  src/src/riot.ts, src/unnamed/part_002 and part_004): boardKey / compKey,
  the table sort without tie-break, the unconditional write block, the
  unbounded recursive 429 retry, and the null-degrading identity resolvers;
* the RateGate class (second document of src/unnamed/part_001): dual
  sliding-window admission control.

JavaScript strings are modelled over List Char with explicit, kernel-reducible
comparison (JS default sort compares strings lexicographically by code unit;
for the identifiers at hand this coincides with comparing Unicode scalar
values).  JS numbers holding counts are Nat, placements and timestamps are
Int, and the division producing average placements is exact division in the
rationals, with toFixed(2) modelled as half-up rounding to two decimals.
-/

/-- Lexicographic comparison of character lists by Unicode scalar value,
modelling the comparison JavaScript's default Array.prototype.sort applies
to strings. -/
def lexLeCh : List Char → List Char → Bool
  | [], _ => true
  | _ :: _, [] => false
  | a :: as, b :: bs =>
    if a.toNat < b.toNat then true
    else if b.toNat < a.toNat then false
    else lexLeCh as bs

/-- Order on strings induced by lexLeCh, used to embed the JS string sort. -/
def strLe (a b : String) : Prop := lexLeCh a.data b.data = true

instance : DecidableRel strLe := fun a b => instDecidableEqBool (lexLeCh a.data b.data) true

/-- Embedding of the JS in-place string sort (stable, by code-unit order). -/
def strSort (l : List String) : List String := List.insertionSort strLe l

/-- Embedding of JS String.prototype.toLowerCase (per-character simple lowering). -/
def jsToLower (s : String) : String := String.mk (s.data.map Char.toLower)

/-- Embedding of JS String.prototype.trim (strip whitespace at both ends). -/
def jsTrim (s : String) : String :=
  String.mk (((s.data.dropWhile Char.isWhitespace).reverse.dropWhile Char.isWhitespace).reverse)

/-- Embedding of Array.prototype.flatten with separator "|". -/
def joinBar (l : List String) : String := String.intercalate "|" l

namespace Mjs

/-- Embedding of the updater script's norm: String(s||"").toLowerCase().trim(). -/
def norm (s : String) : String := jsTrim (jsToLower s)

/-- Embedding of keyOf from the mjs updater: arr.map(norm).sort().flatten("|"),
the canonical unordered composition key. -/
def keyOf (arr : List String) : String := joinBar (strSort (arr.map norm))

end Mjs

namespace TypesTs

/-- Unit shape used by boardKey and compKey: an object carrying character_id. -/
structure RiotUnit where
  character_id : String
deriving DecidableEq

/-- Embedding of boardKey from src/types.ts:
units.map(u => u.character_id).filter(Boolean).sort().flatten("|"). -/
def boardKey (units : List RiotUnit) : String :=
  joinBar (strSort ((units.map RiotUnit.character_id).filter (fun s => s != "")))

end TypesTs

namespace UpdateTs

/-- Embedding of compKey from src/updateCompStats.ts:
units.map(u => u.character_id).sort().flatten("|"). -/
def compKey (units : List TypesTs.RiotUnit) : String :=
  joinBar (strSort (units.map TypesTs.RiotUnit.character_id))

end UpdateTs

/-- Embedding of String.prototype.charAt(0).toUpperCase() + s.slice(1). -/
def capFirst (s : String) : String :=
  match s.data with
  | [] => s
  | c :: cs => String.mk (c.toUpper :: cs)

/-- Splitting a character list at a separator, JS String.prototype.split
semantics (an empty string yields one empty field). -/
def splitChar (sep : Char) : List Char → List (List Char)
  | [] => [[]]
  | c :: rest =>
    match splitChar sep rest with
    | [] => [[]]
    | g :: gs => if c = sep then [] :: g :: gs else (c :: g) :: gs

/-- Embedding of String.prototype.split("|"). -/
def splitBar (s : String) : List String := (splitChar (Char.ofNat 124) s.data).map String.mk

/-- Embedding of s.replace(underscore-regex, " "). -/
def underscoreToSpace (s : String) : String :=
  String.mk (s.data.map (fun c => if c = Char.ofNat 95 then Char.ofNat 32 else c))

/-- Embedding of s.replace(whitespace-regex, ""). -/
def stripSpaces (s : String) : String := String.mk (s.data.filter (fun c => !c.isWhitespace))

/-- Embedding of String.prototype.toUpperCase (per-character simple raising). -/
def jsToUpper (s : String) : String := String.mk (s.data.map Char.toUpper)

/-- Embedding of Array.prototype.flatten with an arbitrary separator. -/
def joinWith (sep : String) (l : List String) : String := String.intercalate sep l

/-- JS x || y on numbers: 0 is falsy. -/
def jsOrNat (a b : Nat) : Nat := if a ≠ 0 then a else b

/-- JS x || y where x is a possibly missing string: undefined and "" are falsy. -/
def jsOrStr (o : Option String) (d : String) : String :=
  match o with
  | some s => if s = "" then d else s
  | none => d

/-- Half-up rounding to two decimals, modelling Number(x.toFixed(2)) on the
exact rational value. -/
def round2 (q : ℚ) : ℚ := (⌊q * 100 + 1 / 2⌋ : ℚ) / 100

namespace Mjs

/-- Raw unit object of a fetched match participant; a tier or star_level of 0
encodes a missing (or zero, equally falsy) field. -/
structure RUnit where
  character_id : String
  tier : Nat
  star_level : Nat
  itemNames : List String
  items : List Nat
deriving DecidableEq

/-- Raw participant object of a fetched match. -/
structure RParticipant where
  placement : Int
  units : List RUnit
deriving DecidableEq

/-- Raw info object of a fetched match; queue_id is none when the field is
absent or not a number. -/
structure RInfo where
  queue_id : Option Int
  participants : List RParticipant
deriving DecidableEq

/-- Raw fetched match; info is none when the field is absent. -/
structure RMatch where
  info : Option RInfo
deriving DecidableEq

/-- Unit after the per-participant mapping step of aggregate. -/
structure MUnit where
  api : String
  name : String
  tier : Nat
  items : List String
deriving DecidableEq

/-- Embedding of the unit mapping inside aggregate: name from the champion
table with fallback to the api id, tier from u.tier || u.star_level || 1, and
items from itemNames when non-empty, else the item table lookups with falsy
values dropped. -/
def mapUnit (champByApi : String → Option String) (itemById : Nat → Option String)
    (u : RUnit) : MUnit :=
  { api := u.character_id
    name := jsOrStr (champByApi u.character_id) u.character_id
    tier := jsOrNat u.tier (jsOrNat u.star_level 1)
    items := if u.itemNames ≠ [] then u.itemNames
             else u.items.filterMap (fun i =>
               match itemById i with
               | some s => if s = "" then none else some s
               | none => none) }

/-- Embedding of (p.units || []).slice(0, 9).map(...). -/
def mapUnits (champByApi : String → Option String) (itemById : Nat → Option String)
    (p : RParticipant) : List MUnit :=
  (p.units.take 9).map (mapUnit champByApi itemById)

/-- Per-unit nested aggregate record. -/
structure UnitAgg where
  games : Nat
  sumTier : Nat
  itemSets : List (String × Nat)
deriving DecidableEq

/-- Per-composition aggregate record of the mjs aggregate. -/
structure CompAgg where
  games : Nat
  sumPlace : Int
  top4 : Nat
  wins : Nat
  units : List (String × UnitAgg)
deriving DecidableEq

/-- JS Map upsert in insertion order: if the key is absent, append it bound to
f applied to the default; otherwise replace the bound value by f of it. -/
def upsert {ν : Type} (k : String) (d : ν) (f : ν → ν) :
    List (String × ν) → List (String × ν)
  | [] => [(k, f d)]
  | (k₀, v) :: rest => if k = k₀ then (k₀, f v) :: rest else (k₀, v) :: upsert k d f rest

def emptyUnitAgg : UnitAgg := ⟨0, 0, []⟩

def emptyCompAgg : CompAgg := ⟨0, 0, 0, 0, []⟩

/-- Embedding of the per-unit statistics update inside aggregate. -/
def foldUnit (u : MUnit) (ua : UnitAgg) : UnitAgg :=
  let ua₁ : UnitAgg :=
    { ua with games := ua.games + 1, sumTier := ua.sumTier + jsOrNat u.tier 1 }
  let setKey := keyOf (u.items.take 3)
  if setKey ≠ "" then
    { ua₁ with itemSets := upsert setKey 0 (fun n => n + 1) ua₁.itemSets }
  else ua₁

/-- Embedding of the counter updates one qualifying participant applies to its
composition aggregate. -/
def applyParticipant (p : RParticipant) (us : List MUnit) (agg : CompAgg) : CompAgg :=
  { games := agg.games + 1
    sumPlace := agg.sumPlace + p.placement
    top4 := if p.placement ≤ 4 then agg.top4 + 1 else agg.top4
    wins := if p.placement = 1 then agg.wins + 1 else agg.wins
    units := us.foldl (fun m u => upsert u.name emptyUnitAgg (foldUnit u) m) agg.units }

/-- Embedding of the participant loop body of aggregate. -/
def foldParticipant (champByApi : String → Option String) (itemById : Nat → Option String)
    (m : List (String × CompAgg)) (p : RParticipant) : List (String × CompAgg) :=
  let us := mapUnits champByApi itemById p
  upsert (keyOf (us.map MUnit.name)) emptyCompAgg (applyParticipant p us) m

/-- Embedding of the match loop body of aggregate: a missing info skips the
match, a numeric queue_id outside the allow-list skips the match, otherwise
every participant is folded in. -/
def foldMatch (keepQueues : List Int) (champByApi : String → Option String)
    (itemById : Nat → Option String) (acc : List (String × CompAgg)) (m : RMatch) :
    List (String × CompAgg) :=
  match m.info with
  | none => acc
  | some info =>
    match info.queue_id with
    | some q =>
      if q ∈ keepQueues then info.participants.foldl (foldParticipant champByApi itemById) acc
      else acc
    | none => info.participants.foldl (foldParticipant champByApi itemById) acc

/-- Composition map accumulated over all fetched matches (the compMap of
aggregate before filtering and ranking). -/
def buildCompMap (keepQueues : List Int) (champByApi : String → Option String)
    (itemById : Nat → Option String) (ms : List RMatch) : List (String × CompAgg) :=
  ms.foldl (foldMatch keepQueues champByApi itemById) []

/-- Per-unit summary row of the published composition record. -/
structure UnitSummary where
  name : String
  avg_stars : ℚ
  pick_rate : ℚ
  common_items : List (List String)
deriving DecidableEq

/-- Published composition record of the mjs aggregate. -/
structure RankedComp where
  id : String
  name : String
  avg_place : ℚ
  top4_rate : ℚ
  win_rate : ℚ
  games : Nat
  units : List UnitSummary
deriving DecidableEq

/-- Embedding of the per-unit summary construction inside aggregate. -/
def unitSummaryOf (aggGames : Nat) (entry : String × UnitAgg) : UnitSummary :=
  let ua := entry.2
  let topSets :=
    ((List.insertionSort (fun x y : String × Nat => y.2 ≤ x.2) ua.itemSets).take 2).map
      (fun kv => (splitBar kv.1).map underscoreToSpace)
  { name := entry.1
    avg_stars := round2 ((ua.sumTier : ℚ) / (ua.games : ℚ))
    pick_rate := round2 ((ua.games : ℚ) / (aggGames : ℚ))
    common_items := topSets }

/-- Embedding of the composition record construction inside aggregate. -/
def compOf (entry : String × CompAgg) : RankedComp :=
  let agg := entry.2
  let names := (splitBar entry.1).map capFirst
  let units := agg.units.map (unitSummaryOf agg.games)
  { id := jsToUpper (stripSpaces (joinWith "_" (names.take 4)))
    name := joinWith " " (names.take 4)
    avg_place := round2 ((agg.sumPlace : ℚ) / (agg.games : ℚ))
    top4_rate := round2 ((agg.top4 : ℚ) / (agg.games : ℚ))
    win_rate := round2 ((agg.wins : ℚ) / (agg.games : ℚ))
    games := agg.games
    units := (List.insertionSort (fun a b : UnitSummary => b.pick_rate ≤ a.pick_rate) units).take 9 }

/-- Embedding of the record-building loop of aggregate: compositions with
games below the sample threshold are dropped, the rest become records. -/
def buildComps (minSample : Nat) (m : List (String × CompAgg)) : List RankedComp :=
  (m.filter (fun e => !decide (e.2.games < minSample))).map compOf

/-- Order of the final comps sort: the comparator
(a.avg_place - b.avg_place) || (b.games - a.games) admits a before b exactly
when a has strictly smaller average placement, or equal average placement and
at least as many games. -/
def rcLe (a b : RankedComp) : Prop :=
  a.avg_place < b.avg_place ∨ (a.avg_place = b.avg_place ∧ b.games ≤ a.games)

instance : DecidableRel rcLe := fun a b => by
  unfold rcLe
  infer_instance

/-- Embedding of the whole mjs aggregate: accumulate the composition map,
build records for sufficiently sampled compositions, sort best-to-worst and
truncate to the top 30. -/
def aggregate (minSample : Nat) (keepQueues : List Int) (champByApi : String → Option String)
    (itemById : Nat → Option String) (ms : List RMatch) : List RankedComp :=
  (List.insertionSort rcLe
    (buildComps minSample (buildCompMap keepQueues champByApi itemById ms))).take 30

/-- Total of the games counters over a composition map. -/
def sumGames (m : List (String × CompAgg)) : Nat := (m.map (fun e => e.2.games)).sum

/-- Number of participants one match contributes to the aggregation: all of
them when the match passes the info and queue guards, none otherwise. -/
def processedOf (keepQueues : List Int) (m : RMatch) : Nat :=
  match m.info with
  | none => 0
  | some info =>
    match info.queue_id with
    | some q => if q ∈ keepQueues then info.participants.length else 0
    | none => info.participants.length

/-- Number of participants of the matches that pass the info and queue
guards, i.e. the participants actually folded into the composition map. -/
def processedParticipants (keepQueues : List Int) (ms : List RMatch) : Nat :=
  (ms.map (processedOf keepQueues)).sum

/-- Published output document of the mjs updater run. -/
structure OutDoc where
  patch : String
  generated_at : String
  sample : Nat
  comps : List RankedComp
deriving DecidableEq

/-- Match-id accumulation into the shared Set (JS Set.add keeps first-insert
order and ignores duplicates). -/
def insertDedup (acc : List String) (id : String) : List String :=
  if id ∈ acc then acc else acc ++ [id]

/-- One identity's listed ids folded into the shared set. -/
def addIds (acc : List String) (ids : List String) : List String :=
  ids.foldl insertDedup acc

/-- Embedding of the id-listing loop of pullMatches: per identity, add the
listed ids to the shared set, stopping once 120 unique ids are accumulated.
The resulting list is the sequence of detail fetches, one rget per element. -/
def pullIds : List (List String) → List String → List String
  | [], acc => acc
  | ids :: rest, acc =>
    if 120 ≤ (addIds acc ids).length then addIds acc ids else pullIds rest (addIds acc ids)

/-- Unique match ids pulled for the given per-identity listings. -/
def pullMatchIds (listings : List (List String)) : List String := pullIds listings []

end Mjs

/-- Contents of the output directory relevant to publishing: the temporary
path and the published artifact path. -/
structure ArtifactFS (α : Type) where
  tmp : Option α
  final : Option α
deriving DecidableEq

namespace Mjs

/-- Embedding of the mjs publish block: write the document to the temporary
path; when the composition list is non-empty atomically rename it over the
published artifact, otherwise unlink the temporary file and leave the
published artifact untouched. -/
def publish (fs : ArtifactFS OutDoc) (out : OutDoc) : ArtifactFS OutDoc :=
  let fs₁ : ArtifactFS OutDoc := { fs with tmp := some out }
  if out.comps.length > 0 then { tmp := none, final := fs₁.tmp }
  else { fs₁ with tmp := none }

end Mjs

namespace UpdateTs

/-- Raw participant of the TypeScript updater variant. -/
structure TParticipant where
  placement : Int
  units : List TypesTs.RiotUnit
deriving DecidableEq

/-- Raw info object; queue_id is none when the field is absent (an absent
queue_id is not a member of the allow-list, so such a match is skipped). -/
structure TInfo where
  queue_id : Option Int
  participants : List TParticipant
deriving DecidableEq

/-- Raw match of the TypeScript updater variant; match_id embeds
metadata.match_id. -/
structure TMatch where
  match_id : String
  info : TInfo
deriving DecidableEq

/-- Per-composition aggregate record of the TypeScript updater. -/
structure CompAgg where
  key : String
  plays : Nat
  sum_place : Int
  top4 : Nat
  examples : List String
deriving DecidableEq

/-- Default record created when a key is first seen. -/
def emptyAgg (k : String) : CompAgg := ⟨k, 0, 0, 0, []⟩

/-- Embedding of the counter updates of one participant in the TypeScript
updater (plays, sum_place, top4, and up to three example match ids). -/
def applyPart (matchId : String) (p : TParticipant) (rec : CompAgg) : CompAgg :=
  { rec with
    plays := rec.plays + 1
    sum_place := rec.sum_place + p.placement
    top4 := if p.placement ≤ 4 then rec.top4 + 1 else rec.top4
    examples := if rec.examples.length < 3 then rec.examples ++ [matchId] else rec.examples }

/-- Embedding of the participant loop body: an empty key is skipped, other
keys are upserted into the comps map. -/
def foldPart (matchId : String) (m : List (String × CompAgg)) (p : TParticipant) :
    List (String × CompAgg) :=
  let key := compKey p.units
  if key = "" then m
  else Mjs.upsert key (emptyAgg key) (applyPart matchId p) m

/-- Embedding of the match loop body: a match is aggregated only when its
queue_id is present and in the allow-list. -/
def foldTMatch (queues : List Int) (acc : List (String × CompAgg)) (m : TMatch) :
    List (String × CompAgg) :=
  match m.info.queue_id with
  | some q =>
    if q ∈ queues then m.info.participants.foldl (foldPart m.match_id) acc else acc
  | none => acc

/-- Comps map accumulated over the fetched matches. -/
def compsMapOf (queues : List Int) (ms : List TMatch) : List (String × CompAgg) :=
  ms.foldl (foldTMatch queues) []

/-- Row of the transformed table written to the output document. -/
structure TableRow where
  comp : List String
  plays : Nat
  avg_place : ℚ
  top4 : ℚ
  examples : List String
deriving DecidableEq

/-- Half-up rounding to one decimal, modelling Number(x.toFixed(1)). -/
def round1 (q : ℚ) : ℚ := (⌊q * 10 + 1 / 2⌋ : ℚ) / 10

/-- Embedding of the table transform: exact average placement over
Math.max(1, plays), rounded to two decimals, and the top-4 percentage rounded
to one decimal. -/
def rowOf (r : String × CompAgg) : TableRow :=
  { comp := splitBar r.2.key
    plays := r.2.plays
    avg_place := round2 ((r.2.sum_place : ℚ) / ((max 1 r.2.plays : Nat) : ℚ))
    top4 := round1 ((r.2.top4 : ℚ) / ((max 1 r.2.plays : Nat) : ℚ) * 100)
    examples := r.2.examples }

/-- Transformed table in comps-map insertion order. -/
def tableOf (queues : List Int) (ms : List TMatch) : List TableRow :=
  (compsMapOf queues ms).map rowOf

/-- Order of table.sort((a, b) => a.avg_place - b.avg_place): ascending
average placement only, ties left in insertion order by sort stability. -/
def tableLe (a b : TableRow) : Prop := a.avg_place ≤ b.avg_place

instance : DecidableRel tableLe := fun a b => by
  unfold tableLe
  infer_instance

/-- Embedding of the ranking step of the TypeScript updater: sort the table
by ascending avg_place and keep the first 30 rows. -/
def best (queues : List Int) (ms : List TMatch) : List TableRow :=
  (List.insertionSort tableLe (tableOf queues ms)).take 30

/-- Ordering asserted by the ranking claim: ascending avg_place with ties
broken by descending plays. -/
def claimOrderTs (a b : TableRow) : Prop :=
  a.avg_place < b.avg_place ∨ (a.avg_place = b.avg_place ∧ b.plays ≤ a.plays)

/-- Output document written by the TypeScript updater. -/
structure TsDoc where
  patch : String
  generated_at : String
  sample : Nat
  comps : List TableRow
deriving DecidableEq

/-- Embedding of the TypeScript updater's write block: the document is
written directly to the published artifact path, unconditionally and with no
temporary file. -/
def writeBlock (fs : ArtifactFS TsDoc) (out : TsDoc) : ArtifactFS TsDoc :=
  { fs with final := some out }

end UpdateTs


namespace Transport

/-- Classified HTTP responses seen by the transport helpers.  A rate response
carries the parsed Retry-After header value (none when the header is absent
or unparsable, which the code treats alike). -/
inductive Resp where
  | rate (retryAfter : Option Nat)
  | ok (body : String)
  | fail (status : Nat)
deriving DecidableEq

/-- Errors thrown by the mjs rget helper. -/
inductive RgetError where
  | rateLimited
  | http (status : Nat)
deriving DecidableEq

/-- Sleep taken by rget on a 429: parseInt(header || "2") * 1000, with a
falsy product replaced by the fixed 2000ms default. -/
def rgetSleep (ra : Option Nat) : Nat := jsOrNat ((ra.getD 2) * 1000) 2000

/-- Embedding of rget's bounded retry loop: the second argument is the
attempt index, the third the remaining loop iterations (4 at the top-level
call).  Returns the outcome together with the list of sleeps performed. -/
def rgetGo (resps : Nat → Resp) : Nat → Nat → Except RgetError String × List Nat
  | _, 0 => (Except.error RgetError.rateLimited, [])
  | attempt, rem + 1 =>
    match resps attempt with
    | Resp.rate ra =>
      let r := rgetGo resps (attempt + 1) rem
      (r.1, rgetSleep ra :: r.2)
    | Resp.ok body => (Except.ok body, [])
    | Resp.fail status => (Except.error (RgetError.http status), [])

/-- Embedding of the mjs rget: at most 4 fetch attempts, sleeping on each
429, then the rate-limited error. -/
def rget (resps : Nat → Resp) : Except RgetError String × List Nat := rgetGo resps 0 4

/-- Sleep taken by the part_004 riot helper on a 429:
(Number(header ?? 1) + 0.5) * 1000 milliseconds. -/
def riotSleep (ra : Option Nat) : Nat := (ra.getD 1) * 1000 + 500

/-- Embedding of the part_004 riot helper, which retries a 429 by recursing
with no attempt counter.  The last argument is evaluation fuel, one unit per
fetch issued; none means the call is still retrying after that many fetches. -/
def riotFuel (resps : Nat → Resp) : Nat → Nat → Option (Except Nat String)
  | _, 0 => none
  | attempt, rem + 1 =>
    match resps attempt with
    | Resp.rate _ => riotFuel resps (attempt + 1) rem
    | Resp.ok body => some (Except.ok body)
    | Resp.fail status => some (Except.error status)

end Transport

namespace RiotTs

/-- Outcome of the single riotGET call made by getPUUIDBySummonerId: a 2xx
response whose body may carry a puuid, a non-2xx status (riotGET throws,
including 404), or a network failure. -/
inductive FetchOutcome where
  | ok (puuid : Option String)
  | httpFail (status : Nat)
  | netErr
deriving DecidableEq

/-- JS expr || null on a possibly missing string: undefined and "" give null. -/
def jsOrNull (o : Option String) : Option String :=
  match o with
  | some s => if s = "" then none else some s
  | none => none

/-- Embedding of getPUUIDBySummonerId from src/riot.ts: a missing host or
key short-circuits to null, a successful response yields s?.puuid || null,
and every caught error yields null. -/
def getPUUIDBySummonerId (hostKnown apiKeyPresent : Bool) (outcome : FetchOutcome) :
    Option String :=
  if !hostKnown || !apiKeyPresent then none
  else
    match outcome with
    | FetchOutcome.ok p => jsOrNull p
    | FetchOutcome.httpFail _ => none
    | FetchOutcome.netErr => none

end RiotTs

namespace RiotP2

/-- Outcome of one fetch inside resolvePuuid (part_002): a thrown network
error, an ok response with j?.puuid ?? null, or a non-ok status. -/
inductive HttpOutcome where
  | ok (puuid : Option String)
  | notOk (status : Nat)
  | threw
deriving DecidableEq

/-- Outcomes that are resolution failures (anything but an ok response). -/
def HttpOutcome.failed : HttpOutcome → Prop
  | HttpOutcome.ok _ => False
  | HttpOutcome.notOk _ => True
  | HttpOutcome.threw => True

instance : DecidablePred HttpOutcome.failed := fun o => by
  unfold HttpOutcome.failed
  cases o <;> infer_instance

/-- Fallback branch of resolvePuuid: the by-name lookup runs only when the
seed carries a name; its failures also yield null. -/
def resolveByName (hasName : Bool) (byName : HttpOutcome) : Option String :=
  if hasName then
    match byName with
    | HttpOutcome.ok p => p
    | HttpOutcome.notOk _ => none
    | HttpOutcome.threw => none
  else none

/-- Embedding of resolvePuuid from part_002: try by encryptedSummonerId; on
an ok response return j?.puuid ?? null, on any failure fall through to the
by-name lookup; every failure path returns null rather than throwing. -/
def resolvePuuid (hasName : Bool) (byId byName : HttpOutcome) : Option String :=
  match byId with
  | HttpOutcome.ok p => p
  | HttpOutcome.notOk _ => resolveByName hasName byName
  | HttpOutcome.threw => resolveByName hasName byName

/-- Embedding of the caller loop (if (puuid) puuids.push(puuid)): collect the
truthy resolution results, in order; absent results are simply omitted. -/
def collectPuuids (results : List (Option String)) : List String :=
  results.foldl
    (fun acc r =>
      match r with
      | some p => if p = "" then acc else acc ++ [p]
      | none => acc) []

end RiotP2

namespace RateGate

/-- Mutable state of the RateGate class: the two timestamp windows. -/
structure GateState where
  last20 : List Int
  last100 : List Int
deriving DecidableEq

/-- Embedding of evictOld: drop timestamps at least 1s (resp. 120s) old. -/
def evictOld (now : Int) (st : GateState) : GateState :=
  { last20 := st.last20.filter (fun t => decide (now - 1000 < t))
    last100 := st.last100.filter (fun t => decide (now - 120000 < t)) }

/-- Admission test of wait: both windows strictly below their budgets. -/
def canPass (perSec per2Min : Nat) (st : GateState) : Bool :=
  decide (st.last20.length < perSec) && decide (st.last100.length < per2Min)

/-- Recording an admitted call: push now onto both windows. -/
def push (now : Int) (st : GateState) : GateState :=
  { last20 := st.last20 ++ [now], last100 := st.last100 ++ [now] }

/-- Observable steps of wait: a loop iteration that fails the admission test
still evicts at its current time; a call step evicts, passes the test and
records its time.  Awaiting (sleep, jitter) separates steps. -/
inductive GateStep where
  | evict (t : Int)
  | call (t : Int)
deriving DecidableEq

/-- Time at which a step executes. -/
def GateStep.time : GateStep → Int
  | GateStep.evict t => t
  | GateStep.call t => t

/-- Effect of one step on the gate state; a call step applies only when
the admission test passes after eviction. -/
def applyGateStep (perSec per2Min : Nat) (st : GateState) : GateStep → Option GateState
  | GateStep.evict t => some (evictOld t st)
  | GateStep.call t =>
    let e := evictOld t st
    if canPass perSec per2Min e then some (push t e) else none

/-- Runs of the gate: sequences of steps each of which applies. -/
inductive GateRun (perSec per2Min : Nat) : GateState → List GateStep → GateState → Prop where
  | nil (st : GateState) : GateRun perSec per2Min st [] st
  | cons {st st₁ st₂ : GateState} (s : GateStep) {steps : List GateStep} :
      applyGateStep perSec per2Min st s = some st₁ →
      GateRun perSec per2Min st₁ steps st₂ →
      GateRun perSec per2Min st (s :: steps) st₂

/-- Timestamps of the admitted calls of a run, in admission order. -/
def callsOf (steps : List GateStep) : List Int :=
  steps.filterMap (fun s =>
    match s with
    | GateStep.call t => some t
    | GateStep.evict _ => none)

/-- Local admission checks: the i-th admitted timestamp was admitted while
fewer than budget of the previously admitted timestamps (including a fixed
prefix acc) lay inside its trailing window of width w. -/
def ChecksFrom (w : Int) (budget : Nat) (acc ts : List Int) : Prop :=
  ∀ i (h : i < ts.length),
    ((acc ++ ts.take i).countP (fun x => decide (ts.get ⟨i, h⟩ - w < x))) < budget

end RateGate

-- ======================================================================
-- Theorems
-- ======================================================================

theorem lexLeCh_cons {a b : Char} {as bs : List Char} :
    lexLeCh (a :: as) (b :: bs) = true ↔
      a.toNat < b.toNat ∨ (a.toNat = b.toNat ∧ lexLeCh as bs = true) := by
  simp only [lexLeCh]
  split_ifs with h1 h2
  · simp [h1]
  · simp only [Bool.false_eq_true, false_iff]
    rintro (h | ⟨h, _⟩) <;> omega
  · constructor
    · intro h
      exact Or.inr ⟨by omega, h⟩
    · rintro (h | ⟨_, h⟩)
      · omega
      · exact h

theorem lexLeCh_total : ∀ as bs : List Char, lexLeCh as bs = true ∨ lexLeCh bs as = true := by
  intro as
  induction as with
  | nil => intro bs; left; rfl
  | cons a as ih =>
    intro bs
    cases bs with
    | nil => right; rfl
    | cons b bs =>
      rw [lexLeCh_cons, lexLeCh_cons]
      rcases Nat.lt_trichotomy a.toNat b.toNat with hlt | heq | hgt
      · exact Or.inl (Or.inl hlt)
      · rcases ih bs with h | h
        · exact Or.inl (Or.inr ⟨heq, h⟩)
        · exact Or.inr (Or.inr ⟨heq.symm, h⟩)
      · exact Or.inr (Or.inl hgt)

theorem lexLeCh_trans : ∀ as bs cs : List Char,
    lexLeCh as bs = true → lexLeCh bs cs = true → lexLeCh as cs = true := by
  intro as
  induction as with
  | nil => intro bs cs _ _; rfl
  | cons a as ih =>
    intro bs cs hab hbc
    cases bs with
    | nil => simp [lexLeCh] at hab
    | cons b bs =>
      cases cs with
      | nil => simp [lexLeCh] at hbc
      | cons c cs =>
        rw [lexLeCh_cons] at hab hbc ⊢
        rcases hab with hab | ⟨hab, hrec⟩
        · rcases hbc with hbc | ⟨hbc, _⟩
          · exact Or.inl (by omega)
          · exact Or.inl (by omega)
        · rcases hbc with hbc | ⟨hbc, hrec2⟩
          · exact Or.inl (by omega)
          · exact Or.inr ⟨by omega, ih bs cs hrec hrec2⟩

theorem char_toNat_inj {a b : Char} (h : a.toNat = b.toNat) : a = b := by
  apply Char.ext
  apply UInt32.ext
  simpa [Char.toNat, UInt32.toNat] using h

theorem lexLeCh_antisymm : ∀ as bs : List Char,
    lexLeCh as bs = true → lexLeCh bs as = true → as = bs := by
  intro as
  induction as with
  | nil =>
    intro bs _ hba
    cases bs with
    | nil => rfl
    | cons b bs => simp [lexLeCh] at hba
  | cons a as ih =>
    intro bs hab hba
    cases bs with
    | nil => simp [lexLeCh] at hab
    | cons b bs =>
      rw [lexLeCh_cons] at hab hba
      rcases hab with hab | ⟨hab, hrec⟩
      · rcases hba with hba | ⟨hba, _⟩ <;> omega
      · rcases hba with hba | ⟨hba, hrec2⟩
        · omega
        · rw [char_toNat_inj hab, ih bs hrec hrec2]

instance strLe_isTotal : IsTotal String strLe := ⟨fun a b => lexLeCh_total a.data b.data⟩

instance strLe_isTrans : IsTrans String strLe :=
  ⟨fun a b c hab hbc => lexLeCh_trans a.data b.data c.data hab hbc⟩

instance strLe_isAntisymm : IsAntisymm String strLe := by
  constructor
  intro a b hab hba
  cases a with
  | mk da =>
    cases b with
    | mk db => exact congrArg String.mk (lexLeCh_antisymm da db hab hba)

theorem strSort_perm_invariant {l₁ l₂ : List String} (h : l₁.Perm l₂) :
    strSort l₁ = strSort l₂ := by
  apply List.eq_of_perm_of_sorted (r := strLe)
  · exact ((List.perm_insertionSort _ l₁).trans h).trans (List.perm_insertionSort _ l₂).symm
  · exact List.sorted_insertionSort _ l₁
  · exact List.sorted_insertionSort _ l₂

/-- C1 (counterexample): the claim asserts key equality regardless of letter
case for all of keyOf, boardKey and compKey; boardKey is case-sensitive.  The
rosters ["Ashe"] and ["ashe"] have identical unit-identifier multisets up to
case, yet boardKey maps them to different keys. -/
theorem c1_boardKey_case_counterexample :
    ((["Ashe"].map jsToLower).Perm (["ashe"].map jsToLower)) ∧
      TypesTs.boardKey [⟨"Ashe"⟩] ≠ TypesTs.boardKey [⟨"ashe"⟩] := by
  constructor
  · decide
  · decide

/-- C1 (amended): keyOf returns identical keys for rosters whose normalized
(lower-cased, trimmed) identifier multisets coincide, regardless of array
order; boardKey and compKey return identical keys for rosters with identical
raw identifier multisets regardless of array order, but are case-sensitive. -/
theorem c1_composition_key_invariance :
    (∀ l₁ l₂ : List String, (l₁.map Mjs.norm).Perm (l₂.map Mjs.norm) →
      Mjs.keyOf l₁ = Mjs.keyOf l₂) ∧
    (∀ us₁ us₂ : List TypesTs.RiotUnit,
      (us₁.map TypesTs.RiotUnit.character_id).Perm (us₂.map TypesTs.RiotUnit.character_id) →
      TypesTs.boardKey us₁ = TypesTs.boardKey us₂ ∧ UpdateTs.compKey us₁ = UpdateTs.compKey us₂) := by
  constructor
  · intro l₁ l₂ h
    unfold Mjs.keyOf
    rw [strSort_perm_invariant h]
  · intro us₁ us₂ h
    constructor
    · unfold TypesTs.boardKey
      rw [strSort_perm_invariant (h.filter _)]
    · unfold UpdateTs.compKey
      rw [strSort_perm_invariant h]

/-- C1 (witness): the amended invariance applied to concrete rosters — keyOf
identifies [" B", "a"] with ["b", "A "] after normalization, and boardKey and
compKey identify the reordered roster ["a", "b"] with ["b", "a"]. -/
theorem c1_composition_key_invariance_witness :
    Mjs.keyOf [" B", "a"] = Mjs.keyOf ["b", "A "] ∧
      TypesTs.boardKey [⟨"a"⟩, ⟨"b"⟩] = TypesTs.boardKey [⟨"b"⟩, ⟨"a"⟩] ∧
      UpdateTs.compKey [⟨"a"⟩, ⟨"b"⟩] = UpdateTs.compKey [⟨"b"⟩, ⟨"a"⟩] := by
  refine ⟨c1_composition_key_invariance.1 _ _ (by decide), ?_, ?_⟩
  · exact (c1_composition_key_invariance.2 [⟨"a"⟩, ⟨"b"⟩] [⟨"b"⟩, ⟨"a"⟩] (by decide)).1
  · exact (c1_composition_key_invariance.2 [⟨"a"⟩, ⟨"b"⟩] [⟨"b"⟩, ⟨"a"⟩] (by decide)).2

namespace Mjs

theorem sumGames_cons (e : String × CompAgg) (rest : List (String × CompAgg)) :
    sumGames (e :: rest) = e.2.games + sumGames rest := by
  simp [sumGames]

theorem sumGames_upsert (k : String) (f : CompAgg → CompAgg)
    (hf : ∀ v, (f v).games = v.games + 1) (m : List (String × CompAgg)) :
    sumGames (upsert k emptyCompAgg f m) = sumGames m + 1 := by
  induction m with
  | nil => simp [upsert, sumGames, hf, emptyCompAgg]
  | cons e rest ih =>
    obtain ⟨k₀, v⟩ := e
    by_cases h : k = k₀
    · simp [upsert, h, sumGames_cons, hf]
      omega
    · simp [upsert, h, sumGames_cons, ih]
      omega

theorem sumGames_foldParticipant (c : String → Option String) (i : Nat → Option String)
    (m : List (String × CompAgg)) (p : RParticipant) :
    sumGames (foldParticipant c i m p) = sumGames m + 1 := by
  unfold foldParticipant
  exact sumGames_upsert _ _ (fun v => rfl) m

theorem sumGames_foldParts (c : String → Option String) (i : Nat → Option String)
    (ps : List RParticipant) :
    ∀ m, sumGames (ps.foldl (foldParticipant c i) m) = sumGames m + ps.length := by
  induction ps with
  | nil => intro m; simp
  | cons p rest ih =>
    intro m
    simp [List.foldl_cons, ih, sumGames_foldParticipant]
    omega

theorem sumGames_foldMatch (keep : List Int) (c : String → Option String)
    (i : Nat → Option String) (acc : List (String × CompAgg)) (m : RMatch) :
    sumGames (foldMatch keep c i acc m) = sumGames acc + processedOf keep m := by
  obtain ⟨o⟩ := m
  cases o with
  | none => simp [foldMatch, processedOf]
  | some info =>
    obtain ⟨qid, parts⟩ := info
    cases qid with
    | none => simp [foldMatch, processedOf, sumGames_foldParts]
    | some q =>
      by_cases hk : q ∈ keep <;>
        simp [foldMatch, processedOf, hk, sumGames_foldParts]

end Mjs

/-- C5: for every fixed list of fetched match records, the sum of the games
counters over the composition map accumulated by aggregate — taken before the
minimum-sample filter — equals the number of participants of the matches that
pass the info and queue guards, one increment per qualifying participant. -/
theorem c5_sum_games_equals_processed_participants
    (keep : List Int) (c : String → Option String) (i : Nat → Option String)
    (ms : List Mjs.RMatch) :
    Mjs.sumGames (Mjs.buildCompMap keep c i ms) = Mjs.processedParticipants keep ms := by
  suffices h : ∀ acc, Mjs.sumGames (ms.foldl (Mjs.foldMatch keep c i) acc) =
      Mjs.sumGames acc + Mjs.processedParticipants keep ms by
    have h0 := h []
    simpa [Mjs.buildCompMap, Mjs.sumGames] using h0
  induction ms with
  | nil => intro acc; simp [Mjs.processedParticipants]
  | cons m rest ih =>
    intro acc
    simp [List.foldl_cons, ih, Mjs.sumGames_foldMatch, Mjs.processedParticipants]
    omega

/-- C6: a fetched match whose queue tag is present and not in the allow-list
is excluded from aggregation entirely — folding it leaves the composition map
(and hence every counter and per-unit statistic, and the final aggregate
output) unchanged.  The filter acts on the fetched record, not on the request:
the id-listing URL of pullMatches carries only a count parameter. -/
theorem c6_disallowed_queue_contributes_nothing
    (keep : List Int) (c : String → Option String) (i : Nat → Option String)
    (m : Mjs.RMatch) (info : Mjs.RInfo) (q : Int)
    (hinfo : m.info = some info) (hq : info.queue_id = some q) (hqk : q ∉ keep) :
    (∀ acc, Mjs.foldMatch keep c i acc m = acc) ∧
    (∀ (minSample : Nat) (ms₁ ms₂ : List Mjs.RMatch),
      Mjs.buildCompMap keep c i (ms₁ ++ m :: ms₂) = Mjs.buildCompMap keep c i (ms₁ ++ ms₂) ∧
      Mjs.aggregate minSample keep c i (ms₁ ++ m :: ms₂) =
        Mjs.aggregate minSample keep c i (ms₁ ++ ms₂)) := by
  have hskip : ∀ acc, Mjs.foldMatch keep c i acc m = acc := by
    intro acc
    simp [Mjs.foldMatch, hinfo, hq, hqk]
  refine ⟨hskip, ?_⟩
  intro minSample ms₁ ms₂
  have hmap : Mjs.buildCompMap keep c i (ms₁ ++ m :: ms₂) =
      Mjs.buildCompMap keep c i (ms₁ ++ ms₂) := by
    unfold Mjs.buildCompMap
    rw [List.foldl_append, List.foldl_append, List.foldl_cons, hskip]
  exact ⟨hmap, by unfold Mjs.aggregate; rw [hmap]⟩

/-- C6 (witness): a match tagged with queue 999 against the allow-list [1100]
is skipped by the fold, and removing it from the input leaves the aggregate
output unchanged. -/
theorem c6_disallowed_queue_witness :
    Mjs.foldMatch [1100] (fun _ => none) (fun _ => none) []
        ⟨some ⟨some 999, [⟨1, []⟩]⟩⟩ = [] ∧
    Mjs.aggregate 0 [1100] (fun _ => none) (fun _ => none)
        [⟨some ⟨some 999, [⟨1, []⟩]⟩⟩] =
      Mjs.aggregate 0 [1100] (fun _ => none) (fun _ => none) [] := by
  have h := c6_disallowed_queue_contributes_nothing [1100] (fun _ => none) (fun _ => none)
    ⟨some ⟨some 999, [⟨1, []⟩]⟩⟩ ⟨some 999, [⟨1, []⟩]⟩ 999 rfl rfl (by decide)
  exact ⟨h.1 [], (h.2 0 [] []).2⟩

/-- C10: a fetched match whose queue_id field is absent or not a number
passes the queue guard, so the aggregator retains it and folds every one of
its participants into the composition map, independently of the configured
allow-list. -/
theorem c10_missing_queue_id_retained
    (c : String → Option String) (i : Nat → Option String)
    (m : Mjs.RMatch) (info : Mjs.RInfo)
    (hinfo : m.info = some info) (hq : info.queue_id = none) :
    ∀ (keep keep₂ : List Int) (acc : List (String × Mjs.CompAgg)),
      Mjs.foldMatch keep c i acc m =
        info.participants.foldl (Mjs.foldParticipant c i) acc ∧
      Mjs.foldMatch keep c i acc m = Mjs.foldMatch keep₂ c i acc m := by
  intro keep keep₂ acc
  constructor
  · simp [Mjs.foldMatch, hinfo, hq]
  · simp [Mjs.foldMatch, hinfo, hq]

/-- C10 (witness): a match with no numeric queue_id is folded in full — its
one participant reaches the participant fold — and the result is the same
under the allow-lists [1100] and []. -/
theorem c10_missing_queue_id_witness :
    Mjs.foldMatch [1100] (fun _ => none) (fun _ => none) []
        ⟨some ⟨none, [⟨3, [⟨"TFT9_Ahri", 2, 0, [], []⟩]⟩]⟩⟩ =
      ([⟨3, [⟨"TFT9_Ahri", 2, 0, [], []⟩]⟩] : List Mjs.RParticipant).foldl
        (Mjs.foldParticipant (fun _ => none) (fun _ => none)) [] ∧
    Mjs.foldMatch [1100] (fun _ => none) (fun _ => none) []
        ⟨some ⟨none, [⟨3, [⟨"TFT9_Ahri", 2, 0, [], []⟩]⟩]⟩⟩ =
      Mjs.foldMatch [] (fun _ => none) (fun _ => none) []
        ⟨some ⟨none, [⟨3, [⟨"TFT9_Ahri", 2, 0, [], []⟩]⟩]⟩⟩ := by
  have h := c10_missing_queue_id_retained (fun _ => none) (fun _ => none)
    ⟨some ⟨none, [⟨3, [⟨"TFT9_Ahri", 2, 0, [], []⟩]⟩]⟩⟩
    ⟨none, [⟨3, [⟨"TFT9_Ahri", 2, 0, [], []⟩]⟩]⟩ rfl rfl
  exact ⟨(h [1100] [] []).1, (h [1100] [] []).2⟩

instance rcLe_isTotal : IsTotal Mjs.RankedComp Mjs.rcLe := by
  refine ⟨fun a b => ?_⟩
  rcases lt_trichotomy a.avg_place b.avg_place with h | h | h
  · exact Or.inl (Or.inl h)
  · rcases Nat.le_total b.games a.games with hg | hg
    · exact Or.inl (Or.inr ⟨h, hg⟩)
    · exact Or.inr (Or.inr ⟨h.symm, hg⟩)
  · exact Or.inr (Or.inl h)

instance rcLe_isTrans : IsTrans Mjs.RankedComp Mjs.rcLe := by
  refine ⟨fun a b c hab hbc => ?_⟩
  rcases hab with h | ⟨he, hg⟩ <;> rcases hbc with h₂ | ⟨he₂, hg₂⟩
  · exact Or.inl (h.trans h₂)
  · exact Or.inl (lt_of_lt_of_le h he₂.le)
  · exact Or.inl (lt_of_le_of_lt he.le h₂)
  · exact Or.inr ⟨he.trans he₂, hg₂.trans hg⟩

instance tableLe_isTotal : IsTotal UpdateTs.TableRow UpdateTs.tableLe :=
  ⟨fun a b => le_total a.avg_place b.avg_place⟩

instance tableLe_isTrans : IsTrans UpdateTs.TableRow UpdateTs.tableLe :=
  ⟨fun _ _ _ hab hbc => le_trans hab hbc⟩

/-- C4 (counterexample): the claim asserts that among compositions with equal
average placement the more-played one ranks first; the TypeScript updater's
table sort compares avg_place only, and its stable sort leaves ties in
insertion order.  One match whose participants field roster A once and roster
B five times, all at placement 1, yields two rows of equal avg_place with the
1-play row ranked above the 5-play row. -/
theorem c4_ts_tiebreak_counterexample :
    ¬ List.Sorted UpdateTs.claimOrderTs
        (UpdateTs.best [1100]
          [⟨"M", ⟨some 1100,
            [⟨1, [⟨"A"⟩]⟩, ⟨1, [⟨"B"⟩]⟩, ⟨1, [⟨"B"⟩]⟩,
             ⟨1, [⟨"B"⟩]⟩, ⟨1, [⟨"B"⟩]⟩, ⟨1, [⟨"B"⟩]⟩]⟩⟩]) := by
  have hbm : UpdateTs.compsMapOf [1100]
      [⟨"M", ⟨some 1100,
        [⟨1, [⟨"A"⟩]⟩, ⟨1, [⟨"B"⟩]⟩, ⟨1, [⟨"B"⟩]⟩,
         ⟨1, [⟨"B"⟩]⟩, ⟨1, [⟨"B"⟩]⟩, ⟨1, [⟨"B"⟩]⟩]⟩⟩] =
      [("A", ⟨"A", 1, 1, 1, ["M"]⟩), ("B", ⟨"B", 5, 5, 5, ["M", "M", "M"]⟩)] := by
    decide
  have havgA : (UpdateTs.rowOf ("A", ⟨"A", 1, 1, 1, ["M"]⟩)).avg_place = 1 := by
    simp only [UpdateTs.rowOf]
    norm_num [round2]
  have havgB : (UpdateTs.rowOf ("B", ⟨"B", 5, 5, 5, ["M", "M", "M"]⟩)).avg_place = 1 := by
    simp only [UpdateTs.rowOf]
    norm_num [round2]
  have htab : UpdateTs.tableOf [1100]
      [⟨"M", ⟨some 1100,
        [⟨1, [⟨"A"⟩]⟩, ⟨1, [⟨"B"⟩]⟩, ⟨1, [⟨"B"⟩]⟩,
         ⟨1, [⟨"B"⟩]⟩, ⟨1, [⟨"B"⟩]⟩, ⟨1, [⟨"B"⟩]⟩]⟩⟩] =
      [UpdateTs.rowOf ("A", ⟨"A", 1, 1, 1, ["M"]⟩),
       UpdateTs.rowOf ("B", ⟨"B", 5, 5, 5, ["M", "M", "M"]⟩)] := by
    rw [UpdateTs.tableOf, hbm]
    rfl
  have hbest : UpdateTs.best [1100]
      [⟨"M", ⟨some 1100,
        [⟨1, [⟨"A"⟩]⟩, ⟨1, [⟨"B"⟩]⟩, ⟨1, [⟨"B"⟩]⟩,
         ⟨1, [⟨"B"⟩]⟩, ⟨1, [⟨"B"⟩]⟩, ⟨1, [⟨"B"⟩]⟩]⟩⟩] =
      [UpdateTs.rowOf ("A", ⟨"A", 1, 1, 1, ["M"]⟩),
       UpdateTs.rowOf ("B", ⟨"B", 5, 5, 5, ["M", "M", "M"]⟩)] := by
    rw [UpdateTs.best, htab]
    have hins : List.insertionSort UpdateTs.tableLe
        [UpdateTs.rowOf ("A", ⟨"A", 1, 1, 1, ["M"]⟩),
         UpdateTs.rowOf ("B", ⟨"B", 5, 5, 5, ["M", "M", "M"]⟩)] =
        [UpdateTs.rowOf ("A", ⟨"A", 1, 1, 1, ["M"]⟩),
         UpdateTs.rowOf ("B", ⟨"B", 5, 5, 5, ["M", "M", "M"]⟩)] := by
      simp only [List.insertionSort, List.orderedInsert]
      rw [if_pos]
      show UpdateTs.tableLe _ _
      simp only [UpdateTs.tableLe]
      rw [havgA, havgB]
    rw [hins]
    rfl
  intro hsort
  rw [hbest] at hsort
  have hrel := List.rel_of_sorted_cons hsort
    (UpdateTs.rowOf ("B", ⟨"B", 5, 5, 5, ["M", "M", "M"]⟩)) (by simp)
  simp only [UpdateTs.claimOrderTs] at hrel
  rcases hrel with h | ⟨_, hg⟩
  · rw [havgA, havgB] at h
    exact lt_irrefl _ h
  · exact absurd hg (by decide)

/-- C4 (amended): the mjs aggregate output is sorted by ascending avg_place
with ties broken by descending games, and holds at most 30 records; the
TypeScript updater's table is sorted by ascending avg_place only (ties stay
in insertion order) and is also truncated to 30 rows. -/
theorem c4_ranked_output_order :
    (∀ (minSample : Nat) (keep : List Int) (c : String → Option String)
        (i : Nat → Option String) (ms : List Mjs.RMatch),
      List.Sorted Mjs.rcLe (Mjs.aggregate minSample keep c i ms) ∧
      (Mjs.aggregate minSample keep c i ms).length ≤ 30) ∧
    (∀ (queues : List Int) (tms : List UpdateTs.TMatch),
      List.Sorted UpdateTs.tableLe (UpdateTs.best queues tms) ∧
      (UpdateTs.best queues tms).length ≤ 30) := by
  constructor
  · intro minSample keep c i ms
    constructor
    · have hs := List.sorted_insertionSort Mjs.rcLe
        (Mjs.buildComps minSample (Mjs.buildCompMap keep c i ms))
      exact List.Pairwise.sublist (List.take_sublist _ _) hs
    · exact List.length_take_le _ _
  · intro queues tms
    constructor
    · have hs := List.sorted_insertionSort UpdateTs.tableLe (UpdateTs.tableOf queues tms)
      exact List.Pairwise.sublist (List.take_sublist _ _) hs
    · exact List.length_take_le _ _

/-- C3 (counterexample): the claim covers the TypeScript updater's write
block, which writes the new document straight to the published artifact with
no temporary file and no emptiness guard: a prior artifact with one
composition is replaced by a document whose composition list is empty. -/
theorem c3_ts_write_counterexample :
    (UpdateTs.writeBlock ⟨none, some ⟨"p", "t", 5, [⟨["A"], 1, 1, 1, ["M"]⟩]⟩⟩
        ⟨"p", "t", 0, []⟩).final = some ⟨"p", "t", 0, []⟩ ∧
    (⟨"p", "t", 0, []⟩ : UpdateTs.TsDoc).comps = [] ∧
    (⟨"p", "t", 5, [⟨["A"], 1, 1, 1, ["M"]⟩]⟩ : UpdateTs.TsDoc).comps ≠ [] ∧
    (UpdateTs.writeBlock ⟨none, some ⟨"p", "t", 5, [⟨["A"], 1, 1, 1, ["M"]⟩]⟩⟩
        ⟨"p", "t", 0, []⟩).final ≠
      (⟨none, some ⟨"p", "t", 5, [⟨["A"], 1, 1, 1, ["M"]⟩]⟩⟩ :
        ArtifactFS UpdateTs.TsDoc).final := by
  refine ⟨rfl, rfl, by simp, ?_⟩
  intro h
  simp [UpdateTs.writeBlock] at h

/-- C3 (amended): the mjs publish block serializes to the temporary path and
then either atomically renames it over the artifact (composition list
non-empty) or unlinks it leaving the prior artifact byte-for-byte untouched
(composition list empty); in particular a non-empty prior artifact is never
replaced by an empty document there.  The TypeScript updater's write block
has no such guard. -/
theorem c3_publish_guard (fs : ArtifactFS Mjs.OutDoc) (out : Mjs.OutDoc) :
    (out.comps ≠ [] → Mjs.publish fs out = ⟨none, some out⟩) ∧
    (out.comps = [] → Mjs.publish fs out = ⟨none, fs.final⟩) := by
  constructor
  · intro h
    simp [Mjs.publish, List.length_pos, h]
  · intro h
    simp [Mjs.publish, h]

/-- C3 (witness): publishing a one-composition document replaces the (empty)
prior artifact with it, and publishing an empty document over a non-empty
prior artifact leaves that artifact in place and discards the temporary. -/
theorem c3_publish_guard_witness :
    Mjs.publish ⟨none, none⟩ ⟨"p", "t", 1, [⟨"I", "N", 1, 1, 1, 1, []⟩]⟩ =
      ⟨none, some ⟨"p", "t", 1, [⟨"I", "N", 1, 1, 1, 1, []⟩]⟩⟩ ∧
    Mjs.publish ⟨none, some ⟨"p", "t", 1, [⟨"I", "N", 1, 1, 1, 1, []⟩]⟩⟩ ⟨"p", "t", 0, []⟩ =
      ⟨none, some ⟨"p", "t", 1, [⟨"I", "N", 1, 1, 1, 1, []⟩]⟩⟩ := by
  exact ⟨(c3_publish_guard ⟨none, none⟩ _).1 (by simp),
    (c3_publish_guard ⟨none, some ⟨"p", "t", 1, [⟨"I", "N", 1, 1, 1, 1, []⟩]⟩⟩ _).2 rfl⟩

namespace Mjs

theorem mem_insertDedup {a id : String} {acc : List String} :
    a ∈ insertDedup acc id ↔ a ∈ acc ∨ a = id := by
  unfold insertDedup
  split_ifs with h
  · constructor
    · exact Or.inl
    · rintro (ha | rfl)
      · exact ha
      · exact h
  · simp [List.mem_append]

theorem nodup_insertDedup {acc : List String} (h : acc.Nodup) (id : String) :
    (insertDedup acc id).Nodup := by
  unfold insertDedup
  split_ifs with hmem
  · exact h
  · rw [List.nodup_append]
    refine ⟨h, List.nodup_singleton id, ?_⟩
    intro x hx hx₂
    rw [List.mem_singleton] at hx₂
    exact hmem (hx₂ ▸ hx)

theorem mem_addIds {a : String} :
    ∀ (ids acc : List String), a ∈ addIds acc ids ↔ a ∈ acc ∨ a ∈ ids := by
  intro ids
  induction ids with
  | nil => intro acc; simp [addIds]
  | cons i rest ih =>
    intro acc
    have hstep : addIds acc (i :: rest) = addIds (insertDedup acc i) rest := rfl
    rw [hstep, ih, mem_insertDedup]
    simp [List.mem_cons]
    tauto

theorem nodup_addIds : ∀ (ids acc : List String), acc.Nodup → (addIds acc ids).Nodup := by
  intro ids
  induction ids with
  | nil => intro acc h; exact h
  | cons i rest ih =>
    intro acc h
    exact ih (insertDedup acc i) (nodup_insertDedup h i)

theorem nodup_pullIds : ∀ (ls : List (List String)) (acc : List String),
    acc.Nodup → (pullIds ls acc).Nodup := by
  intro ls
  induction ls with
  | nil => intro acc h; exact h
  | cons ids rest ih =>
    intro acc h
    unfold pullIds
    split_ifs with hbreak
    · exact nodup_addIds ids acc h
    · exact ih (addIds acc ids) (nodup_addIds ids acc h)

theorem pullIds_complete {a : String} : ∀ (ls : List (List String)) (acc : List String),
    (pullIds ls acc).length < 120 → (a ∈ acc ∨ a ∈ ls.flatten) → a ∈ pullIds ls acc := by
  intro ls
  induction ls with
  | nil =>
    intro acc _ h
    rcases h with h | h
    · exact h
    · simp at h
  | cons ids rest ih =>
    intro acc hlen h
    unfold pullIds at hlen ⊢
    split_ifs at hlen ⊢ with hbreak
    · omega
    · apply ih (addIds acc ids) hlen
      rcases h with h | h
      · exact Or.inl ((mem_addIds ids acc).mpr (Or.inl h))
      · rcases List.mem_flatten.mp h with ⟨l, hl, hal⟩
        rcases List.mem_cons.mp hl with rfl | hl₂
        · exact Or.inl ((mem_addIds l acc).mpr (Or.inr hal))
        · exact Or.inr (List.mem_flatten.mpr ⟨l, hl₂, hal⟩)

end Mjs

/-- C7 (counterexample): the claim asserts that every unique match id is
fetched exactly once; the 120-id cap of pullMatches can prevent a listed id
from ever entering the shared set.  When the first identity lists 120 unique
ids, the break fires before the two identities listing "M1" are processed,
and "M1" is fetched zero times, not once. -/
theorem c7_cap_skips_listed_id :
    ("M1" ∈ (((List.range 120).map (fun n => String.mk [Char.ofNat n])) ::
        ["M1"] :: [["M1"]]).flatten) ∧
    ((Mjs.pullMatchIds (((List.range 120).map (fun n => String.mk [Char.ofNat n])) ::
        ["M1"] :: [["M1"]])).count "M1" = 0) := by
  constructor
  · decide
  · decide

/-- C7 (amended): the detail-fetch list of pullMatches never contains a match
id twice — ids listed by several identities collapse in the shared Set — and,
whenever the run ends with fewer than 120 unique ids (so the cap never
fired), every listed id is fetched exactly once. -/
theorem c7_dedup_single_fetch :
    (∀ listings : List (List String), (Mjs.pullMatchIds listings).Nodup) ∧
    (∀ (listings : List (List String)) (id : String),
      id ∈ listings.flatten → (Mjs.pullMatchIds listings).length < 120 →
      (Mjs.pullMatchIds listings).count id = 1) := by
  constructor
  · intro listings
    exact Mjs.nodup_pullIds listings [] List.nodup_nil
  · intro listings id hmem hlen
    have hin : id ∈ Mjs.pullMatchIds listings :=
      Mjs.pullIds_complete listings [] hlen (Or.inr hmem)
    have hnd : (Mjs.pullMatchIds listings).Nodup := Mjs.nodup_pullIds listings [] List.nodup_nil
    exact List.count_eq_one_of_mem hnd hin

/-- C7 (witness): two identities both listing "M1" produce a duplicate-free
fetch list in which "M1" occurs exactly once. -/
theorem c7_dedup_single_fetch_witness :
    (Mjs.pullMatchIds [["M1"], ["M1"]]).Nodup ∧
    (Mjs.pullMatchIds [["M1"], ["M1"]]).count "M1" = 1 :=
  ⟨c7_dedup_single_fetch.1 [["M1"], ["M1"]],
   c7_dedup_single_fetch.2 [["M1"], ["M1"]] "M1" (by decide) (by decide)⟩

theorem rgetGo_agrees (resps resps₂ : Nat → Transport.Resp) :
    ∀ (rem attempt : Nat), (∀ j, attempt ≤ j → j < attempt + rem → resps j = resps₂ j) →
      Transport.rgetGo resps attempt rem = Transport.rgetGo resps₂ attempt rem := by
  intro rem
  induction rem with
  | zero => intro attempt _; rfl
  | succ n ih =>
    intro attempt h
    have h₀ : resps attempt = resps₂ attempt := h attempt le_rfl (by omega)
    have hrec := ih (attempt + 1) (fun j hj₁ hj₂ => h j (by omega) (by omega))
    cases hr : resps₂ attempt with
    | rate ra => simp [Transport.rgetGo, h₀.trans hr, hr, hrec]
    | ok body => simp [Transport.rgetGo, h₀.trans hr, hr]
    | fail s => simp [Transport.rgetGo, h₀.trans hr, hr]

theorem rgetGo_allRate (ras : Nat → Option Nat) (resps : Nat → Transport.Resp) :
    ∀ (rem attempt : Nat),
      (∀ j, attempt ≤ j → j < attempt + rem → resps j = Transport.Resp.rate (ras j)) →
      Transport.rgetGo resps attempt rem =
        (Except.error Transport.RgetError.rateLimited,
          (List.range' attempt rem).map (fun j => Transport.rgetSleep (ras j))) := by
  intro rem
  induction rem with
  | zero => intro attempt _; simp [Transport.rgetGo]
  | succ n ih =>
    intro attempt h
    have h₀ : resps attempt = Transport.Resp.rate (ras attempt) := h attempt le_rfl (by omega)
    have hrec := ih (attempt + 1) (fun j hj₁ hj₂ => h j (by omega) (by omega))
    simp only [Transport.rgetGo, h₀, hrec]
    rw [List.range'_succ]
    simp

/-- C8 (counterexample): the claim covers the part_004 riot helper, which
retries a 429 by plain recursion with no attempt counter: against a server
answering 429 forever it is still retrying after 5 fetches — where the claim
demands a rate-limited error after at most 4 — and equally after 100. -/
theorem c8_riot_unbounded_counterexample :
    Transport.riotFuel (fun _ => Transport.Resp.rate none) 0 5 = none ∧
    Transport.riotFuel (fun _ => Transport.Resp.rate none) 0 100 = none :=
  ⟨rfl, rfl⟩

/-- C8 (amended): the mjs rget helper sleeps the server-supplied Retry-After
delay (2s default when the header is absent, unparsable or zero) on each 429
and makes at most 4 fetch attempts: four consecutive 429s produce the
rate-limited error and exactly those four sleeps, and the outcome depends
only on the first four responses.  The part_004 riot helper instead retries
without bound. -/
theorem c8_rget_bounded_retry :
    (∀ (resps : Nat → Transport.Resp) (ras : Nat → Option Nat),
      (∀ j, j < 4 → resps j = Transport.Resp.rate (ras j)) →
      Transport.rget resps =
        (Except.error Transport.RgetError.rateLimited,
          [Transport.rgetSleep (ras 0), Transport.rgetSleep (ras 1),
           Transport.rgetSleep (ras 2), Transport.rgetSleep (ras 3)])) ∧
    (∀ resps resps₂ : Nat → Transport.Resp,
      (∀ j, j < 4 → resps j = resps₂ j) → Transport.rget resps = Transport.rget resps₂) := by
  constructor
  · intro resps ras h
    have hall := rgetGo_allRate ras resps 4 0 (fun j _ hj₂ => h j (by omega))
    rw [Transport.rget, hall]
    rfl
  · intro resps resps₂ h
    exact rgetGo_agrees resps resps₂ 4 0 (fun j _ hj₂ => h j (by omega))

/-- C8 (witness): a server that always answers 429 with Retry-After 3 makes
rget sleep 3000ms four times and then raise the rate-limited error. -/
theorem c8_rget_bounded_retry_witness :
    Transport.rget (fun _ => Transport.Resp.rate (some 3)) =
      (Except.error Transport.RgetError.rateLimited, [3000, 3000, 3000, 3000]) := by
  have h := c8_rget_bounded_retry.1 (fun _ => Transport.Resp.rate (some 3)) (fun _ => some 3)
    (fun j _ => rfl)
  exact h.trans (by rfl)

theorem collect_go_skip :
    ∀ (xs ys : List (Option String)) (acc : List String),
      List.foldl
        (fun acc r =>
          match r with
          | some p => if p = "" then acc else acc ++ [p]
          | none => acc) acc (xs ++ none :: ys) =
      List.foldl
        (fun acc r =>
          match r with
          | some p => if p = "" then acc else acc ++ [p]
          | none => acc) acc (xs ++ ys) := by
  intro xs
  induction xs with
  | nil => intro ys acc; simp [List.foldl_cons]
  | cons x rest ih =>
    intro ys acc
    simp only [List.cons_append, List.foldl_cons]
    exact ih ys _

/-- C9: both identity resolvers degrade every resolution failure to an absent
value instead of raising: getPUUIDBySummonerId returns null on any non-2xx
status (including the 404 NotFound case) and on a thrown fetch, resolvePuuid
returns null whenever both the by-id and by-name lookups fail, and a null
result merely omits that seed from the collected batch, which always runs to
completion. -/
theorem c9_resolver_absorbs_failures :
    (∀ (hostKnown apiKeyPresent : Bool) (status : Nat),
      RiotTs.getPUUIDBySummonerId hostKnown apiKeyPresent
          (RiotTs.FetchOutcome.httpFail status) = none ∧
      RiotTs.getPUUIDBySummonerId hostKnown apiKeyPresent RiotTs.FetchOutcome.netErr = none) ∧
    (∀ (hasName : Bool) (b₁ b₂ : RiotP2.HttpOutcome),
      b₁.failed → b₂.failed → RiotP2.resolvePuuid hasName b₁ b₂ = none) ∧
    (∀ (xs ys : List (Option String)),
      RiotP2.collectPuuids (xs ++ none :: ys) = RiotP2.collectPuuids (xs ++ ys)) := by
  refine ⟨?_, ?_, ?_⟩
  · intro hostKnown apiKeyPresent status
    constructor <;> (cases hostKnown <;> cases apiKeyPresent <;> rfl)
  · intro hasName b₁ b₂ h₁ h₂
    cases b₁ <;> cases b₂ <;>
      first
        | exact h₁.elim
        | exact h₂.elim
        | (cases hasName <;> rfl)
  · intro xs ys
    simp only [RiotP2.collectPuuids]
    exact collect_go_skip xs ys []

/-- C9 (witness): a 404 by-id lookup resolves to null, a seed whose by-id
fetch throws and whose by-name lookup returns 500 resolves to null, and a
null in the middle of a batch is simply omitted. -/
theorem c9_resolver_absorbs_failures_witness :
    RiotTs.getPUUIDBySummonerId true true (RiotTs.FetchOutcome.httpFail 404) = none ∧
    RiotP2.resolvePuuid true RiotP2.HttpOutcome.threw (RiotP2.HttpOutcome.notOk 500) = none ∧
    RiotP2.collectPuuids [some "P1", none, some "P2"] =
      RiotP2.collectPuuids [some "P1", some "P2"] :=
  ⟨(c9_resolver_absorbs_failures.1 true true 404).1,
   c9_resolver_absorbs_failures.2.1 true RiotP2.HttpOutcome.threw
     (RiotP2.HttpOutcome.notOk 500) trivial trivial,
   c9_resolver_absorbs_failures.2.2 [some "P1"] [some "P2"]⟩

theorem filter_cutoff_compose (W : Int) {u t : Int} (hut : u ≤ t) (A : List Int) :
    (A.filter (fun x => decide (u - W < x))).filter (fun x => decide (t - W < x)) =
      A.filter (fun x => decide (t - W < x)) := by
  induction A with
  | nil => rfl
  | cons a rest ih =>
    by_cases h₁ : u - W < a
    · by_cases h₂ : t - W < a
      · simp [List.filter_cons, h₁, h₂, ih]
      · simp [List.filter_cons, h₁, h₂, ih]
    · have h₂ : ¬ t - W < a := by omega
      simp [List.filter_cons, h₁, h₂, ih]

theorem evictOld_filter {u t : Int} (hut : u ≤ t) (A : List Int) :
    RateGate.evictOld t
        ⟨A.filter (fun x => decide (u - 1000 < x)), A.filter (fun x => decide (u - 120000 < x))⟩ =
      ⟨A.filter (fun x => decide (t - 1000 < x)), A.filter (fun x => decide (t - 120000 < x))⟩ := by
  unfold RateGate.evictOld
  rw [filter_cutoff_compose 1000 hut, filter_cutoff_compose 120000 hut]

theorem filter_push (W : Int) (hW : 0 < W) (t : Int) (A : List Int) :
    (A ++ [t]).filter (fun x => decide (t - W < x)) =
      A.filter (fun x => decide (t - W < x)) ++ [t] := by
  rw [List.filter_append]
  congr 1
  have hself : t - W < t := by omega
  simp [hself]

theorem checksFrom_cons {W : Int} {B : Nat} {A : List Int} {t : Int} {ts : List Int}
    (hhead : (A.countP (fun x => decide (t - W < x))) < B)
    (htail : RateGate.ChecksFrom W B (A ++ [t]) ts) :
    RateGate.ChecksFrom W B A (t :: ts) := by
  intro i h
  cases i with
  | zero => simpa using hhead
  | succ i =>
    have h' : i < ts.length := by simpa using h
    have hh := htail i h'
    rw [List.append_assoc] at hh
    simpa [List.take_succ_cons] using hh

theorem gateRun_cons_inv {P Q : Nat} {st st₂ : RateGate.GateState} {s : RateGate.GateStep}
    {rest : List RateGate.GateStep} (h : RateGate.GateRun P Q st (s :: rest) st₂) :
    ∃ st₁, RateGate.applyGateStep P Q st s = some st₁ ∧ RateGate.GateRun P Q st₁ rest st₂ := by
  cases h with
  | cons _ happly hrest => exact ⟨_, happly, hrest⟩

theorem gateRun_checks (P Q : Nat) :
    ∀ (steps : List RateGate.GateStep) (A : List Int) (e : Int) (st₂ : RateGate.GateState),
      RateGate.GateRun P Q
        ⟨A.filter (fun x => decide (e - 1000 < x)), A.filter (fun x => decide (e - 120000 < x))⟩
        steps st₂ →
      List.Chain' (fun a b => a.time ≤ b.time) steps →
      (∀ s ∈ steps.head?, e ≤ s.time) →
      RateGate.ChecksFrom 1000 P A (RateGate.callsOf steps) ∧
      RateGate.ChecksFrom 120000 Q A (RateGate.callsOf steps) := by
  intro steps
  induction steps with
  | nil =>
    intro A e st₂ _ _ _
    constructor <;> (intro i h; simp [RateGate.callsOf] at h)
  | cons s rest ih =>
    intro A e st₂ hrun hchain hhead
    have he : e ≤ s.time := hhead s rfl
    obtain ⟨hchain_head, hchain_rest⟩ := List.chain'_cons'.mp hchain
    obtain ⟨st₁, happly, hrest⟩ := gateRun_cons_inv hrun
    cases s with
    | evict t =>
      have het : e ≤ t := by simpa [RateGate.GateStep.time] using he
      simp only [RateGate.applyGateStep] at happly
      rw [evictOld_filter het A] at happly
      injection happly with hst₁
      subst hst₁
      have ihres := ih A t st₂ hrest hchain_rest hchain_head
      constructor
      · simpa [RateGate.callsOf] using ihres.1
      · simpa [RateGate.callsOf] using ihres.2
    | call t =>
      have het : e ≤ t := by simpa [RateGate.GateStep.time] using he
      simp only [RateGate.applyGateStep] at happly
      rw [evictOld_filter het A] at happly
      by_cases hcan : RateGate.canPass P Q
          ⟨A.filter (fun x => decide (t - 1000 < x)),
           A.filter (fun x => decide (t - 120000 < x))⟩ = true
      · rw [if_pos hcan] at happly
        injection happly with hst₁
        have hpush : RateGate.push t
            ⟨A.filter (fun x => decide (t - 1000 < x)),
             A.filter (fun x => decide (t - 120000 < x))⟩ =
            ⟨(A ++ [t]).filter (fun x => decide (t - 1000 < x)),
             (A ++ [t]).filter (fun x => decide (t - 120000 < x))⟩ := by
          unfold RateGate.push
          rw [filter_push 1000 (by omega) t A, filter_push 120000 (by omega) t A]
        rw [hpush] at hst₁
        subst hst₁
        unfold RateGate.canPass at hcan
        rw [Bool.and_eq_true, decide_eq_true_eq, decide_eq_true_eq] at hcan
        obtain ⟨h₁, h₂⟩ := hcan
        have ihres := ih (A ++ [t]) t st₂ hrest hchain_rest hchain_head
        have hcount₁ : (A.countP (fun x => decide (t - 1000 < x))) < P := by
          rw [List.countP_eq_length_filter]
          exact h₁
        have hcount₂ : (A.countP (fun x => decide (t - 120000 < x))) < Q := by
          rw [List.countP_eq_length_filter]
          exact h₂
        have hadm : RateGate.callsOf (RateGate.GateStep.call t :: rest) =
            t :: RateGate.callsOf rest := by
          simp [RateGate.callsOf]
        constructor
        · rw [hadm]
          exact checksFrom_cons hcount₁ ihres.1
        · rw [hadm]
          exact checksFrom_cons hcount₂ ihres.2
      · rw [if_neg hcan] at happly
        exact absurd happly (by simp)

theorem gateRun_checks_init (P Q : Nat) (steps : List RateGate.GateStep)
    (st₂ : RateGate.GateState) (hrun : RateGate.GateRun P Q ⟨[], []⟩ steps st₂)
    (hchain : List.Chain' (fun a b => a.time ≤ b.time) steps) :
    RateGate.ChecksFrom 1000 P [] (RateGate.callsOf steps) ∧
    RateGate.ChecksFrom 120000 Q [] (RateGate.callsOf steps) := by
  cases steps with
  | nil =>
    constructor <;> (intro i h; simp [RateGate.callsOf] at h)
  | cons s rest =>
    refine gateRun_checks P Q (s :: rest) [] s.time st₂ hrun hchain ?_
    intro s' hs'
    simp only [List.head?_cons, Option.mem_def, Option.some.injEq] at hs'
    rw [← hs']

theorem checksFrom_append_left {W : Int} {B : Nat} {ts : List Int} {t : Int}
    (h : RateGate.ChecksFrom W B [] (ts ++ [t])) : RateGate.ChecksFrom W B [] ts := by
  intro i hi
  have hi₂ : i < (ts ++ [t]).length := by simp; omega
  have hh := h i hi₂
  have hget : (ts ++ [t]).get ⟨i, hi₂⟩ = ts.get ⟨i, hi⟩ := List.get_append i hi
  have htake : (ts ++ [t]).take i = ts.take i := List.take_append_of_le_length (by omega)
  rw [hget, htake] at hh
  exact hh

theorem checks_window_bound {W : Int} {B : Nat} (τ : Int) :
    ∀ ts : List Int, RateGate.ChecksFrom W B [] ts →
      (ts.countP (fun x => decide (τ - W < x ∧ x ≤ τ))) ≤ B := by
  intro ts
  induction ts using List.reverseRecOn with
  | nil => intro _; simp
  | append_singleton ts t ih =>
    intro hch
    have hch' := checksFrom_append_left hch
    rw [List.countP_append]
    by_cases hwin : τ - W < t ∧ t ≤ τ
    · have hc1 : ([t].countP (fun x => decide (τ - W < x ∧ x ≤ τ))) = 1 := by
        simp [hwin]
      rw [hc1]
      have hlen : ts.length < (ts ++ [t]).length := by simp
      have hh := hch ts.length hlen
      have hget : (ts ++ [t]).get ⟨ts.length, hlen⟩ = t := by
        simp [List.get_eq_getElem, List.getElem_concat_length]
      have htake : (ts ++ [t]).take ts.length = ts := List.take_left ts [t]
      rw [hget, htake] at hh
      simp only [List.nil_append] at hh
      have hmono : (ts.countP (fun x => decide (τ - W < x ∧ x ≤ τ))) ≤
          ts.countP (fun x => decide (t - W < x)) := by
        apply List.countP_mono_left
        intro a _ ha
        rw [decide_eq_true_eq] at ha ⊢
        omega
      omega
    · have hc0 : ([t].countP (fun x => decide (τ - W < x ∧ x ≤ τ))) = 0 := by
        simp [hwin]
      rw [hc0]
      have := ih hch'
      omega

/-- C2: along every run of RateGate.wait calls from the initial state — the
trace interleaving the evictions of failed loop iterations with the admitted
iterations, at nondecreasing clock readings — every trailing 1-second window
contains at most perSec admitted calls and every trailing 120-second window
at most per2Min, for arbitrary arrival patterns including bursts. -/
theorem c2_rategate_window_bounds (P Q : Nat) (steps : List RateGate.GateStep)
    (st₂ : RateGate.GateState) (hrun : RateGate.GateRun P Q ⟨[], []⟩ steps st₂)
    (hmono : List.Chain' (fun a b => a.time ≤ b.time) steps) (τ : Int) :
    ((RateGate.callsOf steps).countP (fun t => decide (τ - 1000 < t ∧ t ≤ τ))) ≤ P ∧
    ((RateGate.callsOf steps).countP (fun t => decide (τ - 120000 < t ∧ t ≤ τ))) ≤ Q := by
  have h := gateRun_checks_init P Q steps st₂ hrun hmono
  exact ⟨checks_window_bound τ _ h.1, checks_window_bound τ _ h.2⟩

/-- C2 (witness): a gate with budgets 1/1 admits a single call at time 0, and
the trailing windows ending at 0 indeed hold at most one admission. -/
theorem c2_rategate_window_bounds_witness :
    ((RateGate.callsOf [RateGate.GateStep.call 0]).countP
      (fun t => decide ((0 : Int) - 1000 < t ∧ t ≤ 0))) ≤ 1 ∧
    ((RateGate.callsOf [RateGate.GateStep.call 0]).countP
      (fun t => decide ((0 : Int) - 120000 < t ∧ t ≤ 0))) ≤ 1 :=
  c2_rategate_window_bounds 1 1 [RateGate.GateStep.call 0] ⟨[0], [0]⟩
    (RateGate.GateRun.cons (RateGate.GateStep.call 0) rfl (RateGate.GateRun.nil _))
    (List.chain'_singleton _) 0
